import Mathlib

/-!
Shallow embedding of `spotility` (`src/main.rs`) for checking its
natural-language specification.

Modelling conventions:
* `f32`/`f64` values are modelled by `F32`: an exact rational for finite
  values plus explicit markers for the two infinities and NaN.  Finite
  floating-point rounding is abstracted away (all arithmetic is exact
  rational arithmetic); NaN and infinity propagation is kept explicit
  because the program's own assertions mention NaN.
* `DateTime<Utc>` timestamps are modelled as integers (`ℤ`) with their
  total order; only comparison of timestamps is used by the program.
* `HashMap<String, TimeRating>` is modelled as an association list
  `Store := List (String × TimeRating)`; the list order stands for the
  (unspecified) materialisation order of the map.  Lookups take the first
  matching key, and the stores built by the program keep keys unique.
* Fallible code returns `Except`/`Option`; a Rust `panic!`/`unwrap`
  failure is modelled as `Option.none`.
-/

/-- Exact fraction with a positive denominator: the representation used to
model finite `f32`/`f64` values.  Mathlib's `ℚ` is not used because its
normalising arithmetic (`Nat.gcd`) does not reduce in the kernel; `Frac`'s
operations are gcd-free, so concrete runs of the model can be checked by
`decide`.  Two `Frac`s denote the same float value when `Frac.equiv`
holds. -/
structure Frac where
  num : ℤ
  den : ℕ+
deriving DecidableEq

namespace Frac

/-- The denominator as an integer (always positive). -/
def dz (x : Frac) : ℤ := (x.den : ℕ)

/-- Embed an integer. -/
def ofInt (k : ℤ) : Frac := ⟨k, 1⟩

/-- Gcd-free addition. -/
def add (a b : Frac) : Frac := ⟨a.num * b.dz + b.num * a.dz, a.den * b.den⟩

/-- Gcd-free subtraction. -/
def sub (a b : Frac) : Frac := ⟨a.num * b.dz - b.num * a.dz, a.den * b.den⟩

/-- Gcd-free multiplication. -/
def mul (a b : Frac) : Frac := ⟨a.num * b.num, a.den * b.den⟩

/-- Negation. -/
def neg (a : Frac) : Frac := ⟨-a.num, a.den⟩

/-- Division by a positive natural (the only division the program
performs on finite values). -/
def divPNat (a : Frac) (n : ℕ+) : Frac := ⟨a.num, a.den * n⟩

/-- The value order, by cross-multiplication (valid because denominators
are positive). -/
def le (a b : Frac) : Prop := a.num * b.dz ≤ b.num * a.dz

instance : DecidableRel le := fun a b => by
  unfold le; infer_instance

/-- Value equality of two representations, by cross-multiplication. -/
def equiv (a b : Frac) : Prop := a.num * b.dz = b.num * a.dz

instance (a b : Frac) : Decidable (equiv a b) := by
  unfold equiv; infer_instance

end Frac

/-- Model of an `f32`/`f64` value: NaN, the infinities, or an exact finite
value (finite values are modelled as exact fractions; binary rounding is
abstracted away). -/
inductive F32 where
  | nan : F32
  | negInf : F32
  | posInf : F32
  | val : Frac → F32
deriving DecidableEq

namespace F32

/-- First lexicographic component of the comparison key used to model the
total order of `partial_cmp` on non-NaN floats: `-inf < finite < +inf`.
NaN is placed above everything so that the relation stays total; the code
paths that would compare a NaN panic and are modelled separately. -/
def key1 : F32 → ℤ
  | .negInf => -1
  | .val _ => 0
  | .posInf => 1
  | .nan => 2

/-- Second lexicographic component of the comparison key: the fraction
value for finite floats, `0` otherwise. -/
def keyq : F32 → Frac
  | .val q => q
  | _ => Frac.ofInt 0

/-- Total-order model of `f32::partial_cmp` as a `≤` relation (lexicographic
on `(key1, keyq)`).  On non-NaN values it agrees with the IEEE order used
by the program; on NaN it is an arbitrary total completion. -/
def fle (a b : F32) : Prop :=
  a.key1 < b.key1 ∨ (a.key1 = b.key1 ∧ Frac.le a.keyq b.keyq)

instance : DecidableRel fle := fun a b => by
  unfold fle; infer_instance

/-- Semantic (value) equality of two modelled floats: same kind and, for
finite values, the same fraction value.  This is the model of `==` on
floats: two representations of the same value are equal floats. -/
def feq (a b : F32) : Prop :=
  a.key1 = b.key1 ∧ Frac.equiv a.keyq b.keyq

end F32

/-- Model of the Rust struct `TimeRating` (`src/main.rs`, lines 21-25):
the `added_at` timestamp and the `rating` float stored per song. -/
structure TimeRating where
  added_at : ℤ
  rating : F32
deriving DecidableEq

/-- Model of `TimeRating::new` (`src/main.rs`, lines 27-31). -/
def TimeRating.new (added_at : ℤ) (rating : F32) : TimeRating :=
  ⟨added_at, rating⟩

/-- Model of `HashMap<String, TimeRating>`: an association list whose order
stands for the map's (unspecified) materialisation order. -/
abbrev Store : Type := List (String × TimeRating)

/-- Error taxonomy of `load_hashmap`: `File::open` on a missing path gives
`NotFound`; other open/read failures are I/O errors; `serde_json::from_str`
failures are parse errors. -/
inductive LoadError where
  | notFound : LoadError
  | ioError : LoadError
  | parseError : LoadError
deriving DecidableEq

/-- Abstraction of the filesystem state at the database path, as observed
by `load_hashmap`: the file is absent (`File::open` fails with NotFound),
opening/reading fails with another I/O error, or the file's bytes are read
and are abstracted by their `serde_json` parse result. -/
inductive FileAccess where
  | absent : FileAccess
  | readFailure : FileAccess
  | content : Except Unit Store → FileAccess

/-- Model of `load_hashmap` (`src/main.rs`, lines 326-339): open the file
(NotFound / I/O error on failure), read it (I/O error on failure), then
deserialize (parse error on failure). -/
def load_hashmap (f : FileAccess) : Except LoadError Store :=
  match f with
  | .absent => .error .notFound
  | .readFailure => .error .ioError
  | .content (.error _) => .error .parseError
  | .content (.ok m) => .ok m

/-- Model of `load_or_create_hashmap` (`src/main.rs`, lines 320-324):
`load_hashmap(file_path).map_or(Ok(HashMap::new()), Ok)` — every `Err` of
the load, whatever its kind, is replaced by `Ok` of the empty map. -/
def load_or_create_hashmap (f : FileAccess) : Except LoadError Store :=
  match load_hashmap f with
  | .ok m => .ok m
  | .error _ => .ok ([] : List (String × TimeRating))

/-- Digits-to-number accumulator used by the decimal model of
`f32::from_str`. -/
def digits_val (cs : List Char) : ℕ :=
  cs.foldl (fun n c => n * 10 + (c.toNat - 48)) 0

/-- Power of ten as a positive natural, for decimal fractional parts. -/
def pow10 (k : ℕ) : ℕ+ := ⟨10 ^ k, by positivity⟩

/-- Decimal part of the model of `f32::from_str`: an optional integer part
and an optional fractional part around a single dot, at least one digit in
total (exponents are not modelled; none of the program's inputs of
interest use them). -/
def dec_to_rat (cs : List Char) : Option Frac :=
  match cs.splitOn '.' with
  | [ip] =>
    if ip ≠ [] ∧ ip.all Char.isDigit then some (Frac.ofInt (digits_val ip)) else none
  | [ip, fp] =>
    if (ip ++ fp) ≠ [] ∧ ip.all Char.isDigit ∧ fp.all Char.isDigit then
      some (Frac.add (Frac.ofInt (digits_val ip))
        (Frac.divPNat (Frac.ofInt (digits_val fp)) (pow10 fp.length)))
    else none
  | _ => none

/-- Model of `str::parse::<f32>` (Rust std `f32::from_str`), used by the
`rate` subcommand for ratings that are not one of the word forms: an
optional sign followed by (case-insensitively) `inf`/`infinity`, `nan`, or
a decimal number.  In particular the string `NaN` parses successfully to
NaN.  `none` models the parse error (which the code turns into a panic via
`unwrap`). -/
def f32_from_str (s : String) : Option F32 :=
  let cs := s.data
  let signRest : Bool × List Char :=
    match cs with
    | '+' :: t => (false, t)
    | '-' :: t => (true, t)
    | t => (false, t)
  let neg := signRest.1
  let rest := signRest.2
  let lower := rest.map Char.toLower
  if lower = "inf".data ∨ lower = "infinity".data then
    some (if neg then F32.negInf else F32.posInf)
  else if lower = "nan".data then some F32.nan
  else
    match dec_to_rat rest with
    | some q => some (F32.val (if neg then Frac.neg q else q))
    | none => none

/-- Model of the rating-argument parse of the `rate` subcommand
(`src/main.rs`, lines 180-189): the word/number forms map to the fixed
scale 1-4, anything else goes through `str::parse::<f32>().unwrap()`. -/
def parse_rating (s : String) : Option F32 :=
  if s = "great" ∨ s = "1" then some (F32.val (Frac.ofInt 1))
  else if s = "good" ∨ s = "2" then some (F32.val (Frac.ofInt 2))
  else if s = "ok" ∨ s = "3" then some (F32.val (Frac.ofInt 3))
  else if s = "bad" ∨ s = "4" then some (F32.val (Frac.ofInt 4))
  else f32_from_str s

/-- Comparator of the first sort of the `weights` subcommand
(`src/main.rs`, line 134): `b.1.added_at.cmp(&a.1.added_at)` — sort by
`added_at` descending. -/
def added_desc (x y : String × TimeRating) : Prop :=
  y.2.added_at ≤ x.2.added_at

instance : DecidableRel added_desc := fun x y => by
  unfold added_desc; infer_instance

/-- Comparator of the second sort of the `weights` subcommand
(`src/main.rs`, lines 135-139): `a.1.rating.partial_cmp(&b.1.rating)` —
sort by rating ascending. -/
def rating_asc (x y : String × TimeRating) : Prop :=
  F32.fle x.2.rating y.2.rating

instance : DecidableRel rating_asc := fun x y => by
  unfold rating_asc; infer_instance

/-- Model of the two `sort_by` passes of the `weights` subcommand
(`src/main.rs`, lines 132-139).  Rust's `slice::sort_by` is a stable sort,
modelled here by stable insertion sort: first by `added_at` descending,
then by rating ascending. -/
def rank_vec (l : Store) : Store :=
  List.insertionSort rating_asc (List.insertionSort added_desc l)

/-- The side condition under which the second sort's
`expect("all elements have a (non NaN) rating")` cannot fire: no stored
rating is NaN.  (When a NaN is present the Rust code may panic, depending
on which pairs the sort implementation happens to compare; the model is
conservative and treats any NaN-containing store as the panicking case.) -/
def all_ratings_non_nan (l : Store) : Prop :=
  ∀ p ∈ l, p.2.rating ≠ F32.nan

instance (l : Store) : Decidable (all_ratings_non_nan l) := by
  unfold all_ratings_non_nan; exact List.decidableBAll _ l

/-- Round a fraction to an integer, ties to even — the rounding used by
Rust's float formatting with precision (applied after scaling by 100).
With `f` the floor of `x` and `r` the numerator of the fractional part
(so the fractional part is `r / den`), half-to-even compares `2 * r` with
the denominator. -/
def round_half_even (x : Frac) : ℤ :=
  if 2 * (x.num % x.dz) < x.dz then x.num / x.dz
  else if x.dz < 2 * (x.num % x.dz) then x.num / x.dz + 1
  else if 2 ∣ x.num / x.dz then x.num / x.dz else x.num / x.dz + 1

/-- Left-pad a two-digit fractional part with a zero. -/
def pad2 (n : ℕ) : String :=
  if n < 10 then "0" ++ Nat.repr n else Nat.repr n

/-- Render a number of hundredths as a two-decimal string. -/
def fmt2_render (m : ℤ) : String :=
  if m < 0 then "-" ++ Nat.repr (m.natAbs / 100) ++ "." ++ pad2 (m.natAbs % 100)
  else Nat.repr (m.natAbs / 100) ++ "." ++ pad2 (m.natAbs % 100)

/-- Model of Rust's two-digit-precision formatting of a (finite, here
nonnegative in all uses) float: round to two fractional digits (scale by
100 and round ties-to-even), and render as the integer part, a dot, and
two digits. -/
def fmt2 (q : Frac) : String :=
  fmt2_render (round_half_even (Frac.mul q (Frac.ofInt 100)))

/-- The `step` value of the `weights` subcommand: `10.0 / ratings_len as
f64` (`src/main.rs`, line 142), as an exact fraction.  For `n = 0` the
real division yields `+inf` without trapping and the value is never used
(the store is empty); the model gives it the arbitrary finite value `10`
in that unused case. -/
def step_frac (n : ℕ) : Frac :=
  ⟨10, ⟨n.max 1, lt_of_lt_of_le Nat.one_pos (Nat.le_max_right n 1)⟩⟩

/-- Model of the weight-string construction of the `weights` subcommand
(`src/main.rs`, lines 141-154): after the two sorts, the entry of rank
index `i` is rendered as its id, a colon, and `9.0 - step * i + 1.0`
formatted to two decimals, all joined by `|`. -/
def weights_string (l : Store) : String :=
  let sorted := rank_vec l
  let step := step_frac sorted.length
  String.intercalate "|"
    ((sorted.enum).map (fun p => p.2.1 ++ ":" ++
      fmt2 (Frac.add (Frac.sub (Frac.ofInt 9) (Frac.mul step (Frac.ofInt p.1))) (Frac.ofInt 1))))

/-- Model of the `weights` subcommand's feed production: `none` models the
potential `expect` panic on a NaN rating, otherwise the joined weight
string. -/
def weights_command (l : Store) : Option String :=
  if all_ratings_non_nan l then some (weights_string l) else none

/-- The three-entry example store of the specification:
`a:(2023-01-01, 2.0)`, `b:(2023-06-01, 2.0)`, `c:(2023-03-01, 4.0)`
(timestamps encoded as `yyyymmdd` integers, order preserving). -/
def example_store : Store :=
  [("a", TimeRating.new 20230101 (F32.val (Frac.ofInt 2))),
   ("b", TimeRating.new 20230601 (F32.val (Frac.ofInt 2))),
   ("c", TimeRating.new 20230301 (F32.val (Frac.ofInt 4)))]

/-- Model of the store mutation of the `rate` subcommand
(`src/main.rs`, lines 244-267): `ratings.get(id)` — `None` prints an error
and returns early (no mutation, no save), `Some` yields the previous
rating for display and the rating field is overwritten in place. -/
def set_rating (s : Store) (id : String) (r : F32) : Option (F32 × Store) :=
  match List.lookup id s with
  | none => none
  | some tr =>
    some (tr.rating,
      s.map (fun p => if p.1 = id then (p.1, TimeRating.new p.2.added_at r) else p))

/-- Model of the full `rate` flow on the store: parse the rating argument
(`none` models the parse panic), then apply `set_rating` (`none` models
the not-found early return).  A `some` result is the store that
`save_hashmap` then writes; `none` means nothing is saved. -/
def rate_command (s : Store) (id : String) (ratingStr : String) : Option (F32 × Store) :=
  (parse_rating ratingStr).bind (fun r => set_rating s id r)

/-- The fields of a `SavedTrack` that `update-db` uses: the track id and
the `added_at` timestamp. -/
structure LikedRecord where
  id : String
  added_at : ℤ
deriving DecidableEq

/-- Model of the merge loop of the `update-db` subcommand
(`src/main.rs`, lines 296-300): for each liked song,
`ratings.entry(id).or_insert(TimeRating::new(added_at, 3.))` — insert the
entry with the neutral rating `3.0` only when the id is absent. -/
def merge_new (s : Store) (records : List LikedRecord) : Store :=
  records.foldl
    (fun s r =>
      if (List.lookup r.id s).isSome then s
      else s ++ [(r.id, TimeRating.new r.added_at (F32.val (Frac.ofInt 3)))])
    s

/-- The Spotify page size used by `get_liked_songs`
(`src/main.rs`, line 380). -/
def batch_size : ℕ := 50

/-- Model of the page splitting of `get_liked_songs`
(`src/main.rs`, lines 380-410): the list of `(offset, limit)` requests, in
the order the tasks are created and collected.  `full_batches = amount /
50`, `final_batch_size = amount % 50`, one extra batch when the remainder
is positive; batch `i` starts at offset `i * 50` and the final partial
batch (if any) has the remainder as its limit. -/
def pages (amount : ℕ) : List (ℕ × ℕ) :=
  let full_batches := amount / batch_size
  let final_batch_size := amount % batch_size
  let batches_amount :=
    if final_batch_size > 0 then full_batches + 1 else full_batches
  (List.range batches_amount).map (fun i =>
    (i * batch_size,
      if i = full_batches ∧ final_batch_size > 0 then final_batch_size else batch_size))

/-- Model of the result-collection loop of `get_liked_songs`
(`src/main.rs`, lines 412-417): `all_tracks.extend(task??)` page by page,
returning the first page error (the `?`) and otherwise the concatenation
in page order. -/
def collect_pages {E T : Type} (fetchPage : ℕ → ℕ → Except E (List T)) :
    List (ℕ × ℕ) → List T → Except E (List T)
  | [], acc => .ok acc
  | p :: ps, acc =>
    match fetchPage p.1 p.2 with
    | .ok items => collect_pages fetchPage ps (acc ++ items)
    | .error e => .error e

/-- Model of `get_liked_songs` (`src/main.rs`, lines 376-418) over an
abstract paged-fetch capability: issue the page requests of `pages amount`
and collect the results in page order, failing fast on the first page
error. -/
def get_liked_songs {E T : Type} (amount : ℕ)
    (fetchPage : ℕ → ℕ → Except E (List T)) : Except E (List T) :=
  collect_pages fetchPage (pages amount) []

/-- Model of Rust's `slice::chunks(n)`: consecutive slices of length `n`,
the last one possibly shorter, none empty. -/
def chunksOf {α : Type} (n : ℕ) (l : List α) : List (List α) :=
  if h : l.isEmpty ∨ n = 0 then []
  else l.take n :: chunksOf n (l.drop n)
termination_by l.length
decreasing_by
  push_neg at h
  obtain ⟨h1, h2⟩ := h
  have h3 : l.length ≠ 0 := by
    intro hl
    exact h1 (by simp [List.isEmpty_iff, List.eq_nil_of_length_eq_zero hl])
  have := List.length_drop n l
  omega

/-- Retry bound of `populate_playlist` (`src/main.rs`, line 493):
3 retries, hence 4 attempts in total. -/
def max_retries : ℕ := 3

/-- Fixed delay between retries of `populate_playlist`
(`src/main.rs`, line 494), in seconds. -/
def delay_between_retries : ℕ := 2

/-- Model of the per-chunk retry loop of `populate_playlist`
(`src/main.rs`, lines 505-525), over an abstract outcome function giving
the result of each attempt.  Mirrors the loop: try the current attempt; on
success return `Ok`; on failure with `retries < max_retries` sleep for
`delay_between_retries` seconds and retry, otherwise return the error.
The second component is the total time slept, in seconds. -/
def retry_chunk {E : Type} (outcome : ℕ → Except E Unit) (retries : ℕ) :
    Except E Unit × ℕ :=
  match outcome retries with
  | .ok _ => (.ok (), 0)
  | .error e =>
    if _h : retries < max_retries then
      let r := retry_chunk outcome (retries + 1)
      (r.1, r.2 + delay_between_retries)
    else (.error e, 0)
termination_by max_retries - retries
decreasing_by omega

/-- Model of `populate_playlist` (`src/main.rs`, lines 485-542): split the
ids into chunks of at most 100, run the retry loop for each chunk
independently (`outcome ci k` is the result of attempt `k` on chunk `ci`),
collect every chunk's final result (failures are only printed), and return
`Ok(())` regardless. -/
def populate_playlist {E : Type} (song_ids : List String)
    (outcome : ℕ → ℕ → Except E Unit) :
    List (Except E Unit) × Except E Unit :=
  let chunks := chunksOf 100 song_ids
  ((List.range chunks.length).map (fun ci => (retry_chunk (outcome ci) 0).1),
    Except.ok ())

/-! ### Helper lemmas -/

theorem Frac.dz_pos (x : Frac) : 0 < x.dz := by
  have := x.den.2
  simp only [Frac.dz]
  exact_mod_cast this

theorem Frac.le_refl (a : Frac) : Frac.le a a := Int.le_refl _

theorem Frac.le_total (a b : Frac) : Frac.le a b ∨ Frac.le b a :=
  Int.le_total _ _

theorem Frac.le_trans {a b c : Frac} (hab : Frac.le a b) (hbc : Frac.le b c) :
    Frac.le a c := by
  unfold Frac.le at *
  have hb := b.dz_pos
  have h1 : a.num * b.dz * c.dz ≤ b.num * a.dz * c.dz :=
    mul_le_mul_of_nonneg_right hab (Int.le_of_lt c.dz_pos)
  have h2 : b.num * c.dz * a.dz ≤ c.num * b.dz * a.dz :=
    mul_le_mul_of_nonneg_right hbc (Int.le_of_lt a.dz_pos)
  have h3 : a.num * c.dz * b.dz ≤ c.num * a.dz * b.dz := by nlinarith
  exact Int.le_of_mul_le_mul_right h3 hb

theorem Frac.equiv_le {a b : Frac} (h : Frac.equiv a b) : Frac.le a b :=
  Int.le_of_eq h

theorem Frac.equiv_ge {a b : Frac} (h : Frac.equiv a b) : Frac.le b a :=
  Int.le_of_eq h.symm

theorem F32.fle_refl (a : F32) : F32.fle a a := Or.inr ⟨rfl, Frac.le_refl _⟩

theorem F32.fle_total (a b : F32) : F32.fle a b ∨ F32.fle b a := by
  rcases lt_trichotomy a.key1 b.key1 with h | h | h
  · exact Or.inl (Or.inl h)
  · rcases Frac.le_total a.keyq b.keyq with hq | hq
    · exact Or.inl (Or.inr ⟨h, hq⟩)
    · exact Or.inr (Or.inr ⟨h.symm, hq⟩)
  · exact Or.inr (Or.inl h)

theorem F32.fle_trans {a b c : F32} (hab : F32.fle a b) (hbc : F32.fle b c) :
    F32.fle a c := by
  rcases hab with h1 | ⟨h1, hq1⟩ <;> rcases hbc with h2 | ⟨h2, hq2⟩
  · exact Or.inl (h1.trans h2)
  · exact Or.inl (h2 ▸ h1)
  · exact Or.inl (h1 ▸ h2)
  · exact Or.inr ⟨h1.trans h2, Frac.le_trans hq1 hq2⟩

theorem F32.feq_fle {a b : F32} (h : F32.feq a b) : F32.fle a b :=
  Or.inr ⟨h.1, Frac.equiv_le h.2⟩

theorem F32.feq_fge {a b : F32} (h : F32.feq a b) : F32.fle b a :=
  Or.inr ⟨h.1.symm, Frac.equiv_ge h.2⟩

/-- Stability kernel for one ordered insertion: inserting `a` into a list
that is sorted under a total, transitive `le` and already pairwise carries
the tie-breaking relation `R x y := le x y ∧ (le y x → Q x y)` keeps
`R` pairwise, provided `a` is `Q`-related to everything present. -/
theorem orderedInsert_pairwise_stable {α : Type} {le Q : α → α → Prop} [DecidableRel le]
    (htot : ∀ x y, le x y ∨ le y x) (htr : ∀ x y z, le x y → le y z → le x z) (a : α) :
    ∀ s : List α, s.Sorted le →
      s.Pairwise (fun x y => le x y ∧ (le y x → Q x y)) →
      (∀ x ∈ s, Q a x) →
      (s.orderedInsert le a).Pairwise (fun x y => le x y ∧ (le y x → Q x y)) := by
  intro s
  induction s with
  | nil => intro _ _ _; simp
  | cons b s ih =>
    intro hsort hpw hq
    by_cases hab : le a b
    · rw [List.orderedInsert, if_pos hab]
      refine List.pairwise_cons.mpr ⟨?_, hpw⟩
      intro y hy
      rcases List.mem_cons.mp hy with rfl | hy2
      · exact ⟨hab, fun _ => hq y (List.mem_cons_self _ _)⟩
      · have hby : le b y := (List.sorted_cons.mp hsort).1 y hy2
        exact ⟨htr a b y hab hby, fun _ => hq y (List.mem_cons_of_mem _ hy2)⟩
    · rw [List.orderedInsert, if_neg hab]
      refine List.pairwise_cons.mpr ⟨?_, ?_⟩
      · intro y hy
        rcases (List.mem_orderedInsert le).mp hy with hya | hy2
        · rw [hya]
          exact ⟨(htot a b).resolve_left hab, fun h => absurd h hab⟩
        · exact (List.pairwise_cons.mp hpw).1 y hy2
      · exact ih (List.sorted_cons.mp hsort).2 (List.pairwise_cons.mp hpw).2
          (fun x hx => hq x (List.mem_cons_of_mem _ hx))

/-- Stability of insertion sort: sorting by a total, transitive `le` a list
that pairwise satisfies `Q` yields a list that pairwise satisfies "`le`,
and `Q` on `le`-ties" — ties keep their prior relative order. -/
theorem insertionSort_pairwise_stable {α : Type} {le Q : α → α → Prop} [DecidableRel le]
    (htot : ∀ x y, le x y ∨ le y x) (htr : ∀ x y z, le x y → le y z → le x z) :
    ∀ l : List α, l.Pairwise Q →
      (l.insertionSort le).Pairwise (fun x y => le x y ∧ (le y x → Q x y)) := by
  intro l
  induction l with
  | nil => intro _; simp
  | cons b bs ih =>
    intro hpw
    rw [List.insertionSort]
    letI : IsTotal α le := ⟨htot⟩
    letI : IsTrans α le := ⟨fun x y z => htr x y z⟩
    exact orderedInsert_pairwise_stable htot htr b _
      (List.sorted_insertionSort le bs)
      (ih (List.pairwise_cons.mp hpw).2)
      (fun x hx => (List.pairwise_cons.mp hpw).1 x ((List.mem_insertionSort le).mp hx))

/-- The floor computed by `round_half_even` is representation-independent:
equivalent fractions have equal floors. -/
theorem Frac.ediv_congr {a b : Frac} (h : Frac.equiv a b) :
    a.num / a.dz = b.num / b.dz := by
  have haz := a.dz_pos
  have hbz := b.dz_pos
  have hcross : a.num * b.dz = b.num * a.dz := h
  have hfa := Int.ediv_add_emod a.num a.dz
  have hfb := Int.ediv_add_emod b.num b.dz
  have hra0 : 0 ≤ a.num % a.dz := Int.emod_nonneg _ haz.ne'
  have hra1 : a.num % a.dz < a.dz := Int.emod_lt_of_pos _ haz
  have hrb0 : 0 ≤ b.num % b.dz := Int.emod_nonneg _ hbz.ne'
  have hrb1 : b.num % b.dz < b.dz := Int.emod_lt_of_pos _ hbz
  have hfa1 : a.dz * (a.num / a.dz) ≤ a.num := by linarith
  have hfa2 : a.num < (a.num / a.dz + 1) * a.dz := by linarith [hfa, hra1]
  have hgb1 : b.dz * (b.num / b.dz) ≤ b.num := by linarith
  have hgb2 : b.num < (b.num / b.dz + 1) * b.dz := by linarith [hfb, hrb1]
  have h1 : (a.num / a.dz) * b.dz ≤ b.num := by
    have step1 : (a.num / a.dz * b.dz) * a.dz ≤ b.num * a.dz := by
      calc (a.num / a.dz * b.dz) * a.dz = (a.dz * (a.num / a.dz)) * b.dz := by ring
        _ ≤ a.num * b.dz := mul_le_mul_of_nonneg_right hfa1 hbz.le
        _ = b.num * a.dz := hcross
    exact (mul_le_mul_right haz).mp step1
  have h2 : b.num < (a.num / a.dz + 1) * b.dz := by
    have step1 : b.num * a.dz < ((a.num / a.dz + 1) * b.dz) * a.dz := by
      calc b.num * a.dz = a.num * b.dz := hcross.symm
        _ < ((a.num / a.dz + 1) * a.dz) * b.dz := mul_lt_mul_of_pos_right hfa2 hbz
        _ = ((a.num / a.dz + 1) * b.dz) * a.dz := by ring
    exact (mul_lt_mul_right haz).mp step1
  have c1 : a.num / a.dz < b.num / b.dz + 1 := by
    have : (a.num / a.dz) * b.dz < (b.num / b.dz + 1) * b.dz := by linarith
    exact (mul_lt_mul_right hbz).mp this
  have c2 : b.num / b.dz < a.num / a.dz + 1 := by
    have : b.dz * (b.num / b.dz) < b.dz * (a.num / a.dz + 1) := by linarith
    exact (mul_lt_mul_left hbz).mp this
  omega

/-- The fractional-part comparison of `round_half_even` is
representation-independent: the sign of `2 * remainder - denominator`
transfers across equivalent fractions. -/
theorem Frac.emod_key {a b : Frac} (h : Frac.equiv a b) :
    (2 * (a.num % a.dz) - a.dz) * b.dz = (2 * (b.num % b.dz) - b.dz) * a.dz := by
  have hcross : a.num * b.dz = b.num * a.dz := h
  have hfa := Int.ediv_add_emod a.num a.dz
  have hfb := Int.ediv_add_emod b.num b.dz
  have hfg := Frac.ediv_congr h
  have hra : a.num % a.dz = a.num - a.dz * (a.num / a.dz) := by linarith
  have hrb : b.num % b.dz = b.num - b.dz * (b.num / b.dz) := by linarith
  rw [hra, hrb, ← hfg]
  linear_combination 2 * hcross

/-- Half-to-even rounding is representation-independent. -/
theorem round_half_even_congr {a b : Frac} (h : Frac.equiv a b) :
    round_half_even a = round_half_even b := by
  have haz := a.dz_pos
  have hbz := b.dz_pos
  have hfg := Frac.ediv_congr h
  have key := Frac.emod_key h
  have hlt : 2 * (a.num % a.dz) < a.dz ↔ 2 * (b.num % b.dz) < b.dz := by
    constructor
    · intro hx
      have h1 : (2 * (a.num % a.dz) - a.dz) * b.dz < 0 :=
        mul_neg_of_neg_of_pos (by linarith) hbz
      rw [key] at h1
      nlinarith
    · intro hx
      have h1 : (2 * (b.num % b.dz) - b.dz) * a.dz < 0 :=
        mul_neg_of_neg_of_pos (by linarith) haz
      rw [← key] at h1
      nlinarith
  have hgt : a.dz < 2 * (a.num % a.dz) ↔ b.dz < 2 * (b.num % b.dz) := by
    constructor
    · intro hx
      have h1 : 0 < (2 * (a.num % a.dz) - a.dz) * b.dz :=
        mul_pos (by linarith) hbz
      rw [key] at h1
      nlinarith
    · intro hx
      have h1 : 0 < (2 * (b.num % b.dz) - b.dz) * a.dz :=
        mul_pos (by linarith) haz
      rw [← key] at h1
      nlinarith
  unfold round_half_even
  by_cases h1 : 2 * (a.num % a.dz) < a.dz
  · rw [if_pos h1, if_pos (hlt.mp h1), hfg]
  · rw [if_neg h1, if_neg (fun hx => h1 (hlt.mpr hx))]
    by_cases h2 : a.dz < 2 * (a.num % a.dz)
    · rw [if_pos h2, if_pos (hgt.mp h2), hfg]
    · rw [if_neg h2, if_neg (fun hx => h2 (hgt.mpr hx)), hfg]

/-- Two-decimal formatting is representation-independent. -/
theorem fmt2_congr {a b : Frac} (h : Frac.equiv a b) : fmt2 a = fmt2 b := by
  unfold fmt2
  have h100 : Frac.equiv (Frac.mul a (Frac.ofInt 100)) (Frac.mul b (Frac.ofInt 100)) := by
    unfold Frac.equiv Frac.mul Frac.ofInt Frac.dz at *
    simp only [PNat.mul_coe, PNat.one_coe, Nat.cast_mul, Nat.cast_one]
    linear_combination 100 * h
  rw [round_half_even_congr h100]

/-- Lookup in an appended association list: the first list takes priority. -/
theorem lookup_append (id : String) (l1 l2 : Store) :
    List.lookup id (l1 ++ l2) = (List.lookup id l1).or (List.lookup id l2) := by
  induction l1 with
  | nil => simp
  | cons p t ih =>
    obtain ⟨k, v⟩ := p
    by_cases hk : k = id
    · subst hk
      simp [List.lookup_cons]
    · simp only [List.cons_append, List.lookup_cons, beq_false_of_ne (Ne.symm hk)]
      exact ih

/-- Lookup of the overwritten key after the `rate` update: only the rating
changes, the timestamp is kept. -/
theorem lookup_map_update_self (s : Store) (id : String) (r : F32) (tr : TimeRating)
    (h : List.lookup id s = some tr) :
    List.lookup id
      (s.map (fun p => if p.1 = id then (p.1, TimeRating.new p.2.added_at r) else p)) =
      some (TimeRating.new tr.added_at r) := by
  induction s with
  | nil => simp at h
  | cons p t ih =>
    obtain ⟨k, v⟩ := p
    by_cases hk : k = id
    · subst hk
      simp only [List.lookup_cons, beq_self_eq_true] at h
      cases h
      simp [List.map, List.lookup_cons]
    · simp only [List.lookup_cons, beq_false_of_ne (Ne.symm hk)] at h
      simp only [List.map, if_neg hk, List.lookup_cons, beq_false_of_ne (Ne.symm hk)]
      exact ih h

/-- Lookup of any other key is untouched by the `rate` update. -/
theorem lookup_map_update_other (s : Store) (id id2 : String) (r : F32) (h : id2 ≠ id) :
    List.lookup id2
      (s.map (fun p => if p.1 = id then (p.1, TimeRating.new p.2.added_at r) else p)) =
      List.lookup id2 s := by
  induction s with
  | nil => simp
  | cons p t ih =>
    obtain ⟨k, v⟩ := p
    by_cases hk : k = id
    · have hk2 : k ≠ id2 := by rw [hk]; exact fun he => h he.symm
      simp only [List.map, if_pos hk, List.lookup_cons, beq_false_of_ne (Ne.symm hk2)]
      exact ih
    · by_cases hk2 : k = id2
      · subst hk2
        simp [List.map, if_neg hk, List.lookup_cons]
      · simp only [List.map, if_neg hk, List.lookup_cons, beq_false_of_ne (Ne.symm hk2)]
        exact ih

/-- The `rate` update keeps the key sequence of the store unchanged. -/
theorem map_update_keys (s : Store) (id : String) (r : F32) :
    (s.map (fun p => if p.1 = id then (p.1, TimeRating.new p.2.added_at r) else p)).map
        Prod.fst =
      s.map Prod.fst := by
  induction s with
  | nil => rfl
  | cons p t ih =>
    by_cases hk : p.1 = id <;> simp [List.map, hk, ih]

/-- Existing entries survive the merge loop unchanged: `or_insert` never
overwrites. -/
theorem merge_new_preserves (records : List LikedRecord) :
    ∀ (s : Store) (id : String) (v : TimeRating),
      List.lookup id s = some v → List.lookup id (merge_new s records) = some v := by
  induction records with
  | nil => intro s id v h; exact h
  | cons r t ih =>
    intro s id v h
    unfold merge_new
    rw [List.foldl_cons]
    by_cases hs : (List.lookup r.id s).isSome
    · rw [if_pos hs]
      exact ih s id v h
    · rw [if_neg hs]
      refine ih _ id v ?_
      rw [lookup_append, h]
      rfl

/-- A key whose lookup succeeds keeps succeeding through the merge loop. -/
theorem merge_new_isSome_preserved (records : List LikedRecord) (s : Store) (id : String)
    (h : (List.lookup id s).isSome) :
    (List.lookup id (merge_new s records)).isSome := by
  obtain ⟨v, hv⟩ := Option.isSome_iff_exists.mp h
  rw [merge_new_preserves records s id v hv]
  rfl

/-- After the merge loop, every merged record's id is present. -/
theorem merge_new_mem_isSome (records : List LikedRecord) :
    ∀ (s : Store) (r : LikedRecord), r ∈ records →
      (List.lookup r.id (merge_new s records)).isSome := by
  induction records with
  | nil => intro s r hr; cases hr
  | cons q t ih =>
    intro s r hr
    unfold merge_new
    rw [List.foldl_cons]
    rcases List.mem_cons.mp hr with rfl | hrt
    · by_cases hs : (List.lookup r.id s).isSome
      · rw [if_pos hs]
        exact merge_new_isSome_preserved t s r.id hs
      · rw [if_neg hs]
        refine merge_new_isSome_preserved t _ r.id ?_
        rw [lookup_append, Option.not_isSome_iff_eq_none.mp hs]
        simp [List.lookup_cons]
    · by_cases hs : (List.lookup q.id s).isSome
      · rw [if_pos hs]
        exact ih s r hrt
      · rw [if_neg hs]
        exact ih _ r hrt

/-- When every merged record's id is already present, the merge loop is the
identity on the store. -/
theorem merge_new_nop (records : List LikedRecord) :
    ∀ s : Store, (∀ r ∈ records, (List.lookup r.id s).isSome) → merge_new s records = s := by
  induction records with
  | nil => intro s _; rfl
  | cons q t ih =>
    intro s h
    unfold merge_new
    rw [List.foldl_cons, if_pos (h q (List.mem_cons_self _ _))]
    exact ih s (fun r hr => h r (List.mem_cons_of_mem _ hr))

/-- A record id absent from the store gets inserted by the merge loop with
the record's timestamp and the neutral rating `3.0`. -/
theorem merge_new_inserts (records : List LikedRecord) :
    ∀ (s : Store) (id : String), List.lookup id s = none →
      (∃ r ∈ records, r.id = id) →
      ∃ r ∈ records, r.id = id ∧
        List.lookup id (merge_new s records) =
          some (TimeRating.new r.added_at (F32.val (Frac.ofInt 3))) := by
  induction records with
  | nil => intro s id _ hex; obtain ⟨r, hr, _⟩ := hex; cases hr
  | cons q t ih =>
    intro s id habs hex
    unfold merge_new
    rw [List.foldl_cons]
    by_cases hq : q.id = id
    · have hqs : ¬(List.lookup q.id s).isSome := by
        rw [hq, habs]; simp
      rw [if_neg hqs]
      refine ⟨q, List.mem_cons_self _ _, hq, ?_⟩
      refine merge_new_preserves t _ id _ ?_
      rw [lookup_append, habs, hq]
      simp [List.lookup_cons]
    · have hext : ∃ r ∈ t, r.id = id := by
        obtain ⟨r, hr, hrid⟩ := hex
        rcases List.mem_cons.mp hr with rfl | hrt
        · exact absurd hrid hq
        · exact ⟨r, hrt, hrid⟩
      by_cases hs : (List.lookup q.id s).isSome
      · rw [if_pos hs]
        obtain ⟨r, hr, hrid, hlook⟩ := ih s id habs hext
        exact ⟨r, List.mem_cons_of_mem _ hr, hrid, hlook⟩
      · rw [if_neg hs]
        have habs2 : List.lookup id (s ++ [(q.id, TimeRating.new q.added_at (F32.val (Frac.ofInt 3)))]) = none := by
          rw [lookup_append, habs]
          simp [List.lookup_cons, beq_false_of_ne (fun he => hq he.symm)]
        obtain ⟨r, hr, hrid, hlook⟩ := ih _ id habs2 hext
        exact ⟨r, List.mem_cons_of_mem _ hr, hrid, hlook⟩

/-- The merge loop is idempotent. -/
theorem merge_new_idem_helper (s : Store) (records : List LikedRecord) :
    merge_new (merge_new s records) records = merge_new s records :=
  merge_new_nop records _ (fun r hr => merge_new_mem_isSome records s r hr)

/-- Unfolding: a successful attempt ends the retry loop at once. -/
theorem retry_chunk_ok {E : Type} (o : ℕ → Except E Unit) (k : ℕ) (h : o k = .ok ()) :
    retry_chunk o k = (.ok (), 0) := by
  unfold retry_chunk
  rw [h]

/-- Unfolding: a failed attempt with retries left sleeps once and retries. -/
theorem retry_chunk_err_lt {E : Type} (o : ℕ → Except E Unit) (k : ℕ) (e : E)
    (h : o k = .error e) (hk : k < max_retries) :
    retry_chunk o k =
      ((retry_chunk o (k + 1)).1, (retry_chunk o (k + 1)).2 + delay_between_retries) := by
  conv_lhs => rw [retry_chunk]
  rw [h]
  dsimp only
  rw [dif_pos hk]

/-- Unfolding: a failed attempt with no retries left returns its error. -/
theorem retry_chunk_err_ge {E : Type} (o : ℕ → Except E Unit) (k : ℕ) (e : E)
    (h : o k = .error e) (hk : ¬ k < max_retries) :
    retry_chunk o k = (.error e, 0) := by
  conv_lhs => rw [retry_chunk]
  rw [h]
  dsimp only
  rw [dif_neg hk]

/-- The chunks cover the id list exactly: flattening them gives it back. -/
theorem chunksOf_flatten {α : Type} (n : ℕ) (hn : n ≠ 0) (l : List α) :
    (chunksOf n l).flatten = l := by
  induction l using chunksOf.induct n with
  | case1 x hx =>
    rcases hx with hx | hx
    · rw [chunksOf, dif_pos (Or.inl hx)]
      simp [List.isEmpty_iff.mp hx]
    · exact absurd hx hn
  | case2 x hx ih =>
    rw [chunksOf, dif_neg hx]
    simp only [List.flatten_cons, ih]
    exact List.take_append_drop n x

/-- Every chunk holds at most `n` elements. -/
theorem chunksOf_length_le {α : Type} (n : ℕ) (l : List α) :
    ∀ c ∈ chunksOf n l, c.length ≤ n := by
  induction l using chunksOf.induct n with
  | case1 x hx =>
    intro c hc
    rw [chunksOf, dif_pos hx] at hc
    cases hc
  | case2 x hx ih =>
    intro c hc
    rw [chunksOf, dif_neg hx] at hc
    rcases List.mem_cons.mp hc with rfl | hc2
    · simpa using List.length_take_le n x
    · exact ih c hc2

/-- The retry loop started at attempt `k ≤ max_retries` succeeds exactly
when some attempt in `k..max_retries` succeeds (it stops at the first
success). -/
theorem retry_chunk_ok_iff_from {E : Type} (o : ℕ → Except E Unit) (k : ℕ)
    (hk : k ≤ max_retries) :
    (retry_chunk o k).1 = .ok () ↔ ∃ j, k ≤ j ∧ j ≤ max_retries ∧ o j = .ok () := by
  cases hok : o k with
  | ok u =>
    cases u
    rw [retry_chunk_ok o k hok]
    exact iff_of_true rfl ⟨k, Nat.le_refl k, hk, hok⟩
  | error e =>
    by_cases hlt : k < max_retries
    · rw [retry_chunk_err_lt o k e hok hlt]
      dsimp only
      rw [retry_chunk_ok_iff_from o (k + 1) hlt]
      constructor
      · rintro ⟨j, hj1, hj2, hj3⟩
        exact ⟨j, by omega, hj2, hj3⟩
      · rintro ⟨j, hj1, hj2, hj3⟩
        refine ⟨j, ?_, hj2, hj3⟩
        rcases Nat.eq_or_lt_of_le hj1 with rfl | hj4
        · rw [hok] at hj3; cases hj3
        · omega
    · rw [retry_chunk_err_ge o k e hok hlt]
      refine iff_of_false (by simp) ?_
      rintro ⟨j, hj1, hj2, hj3⟩
      have : j = k := by omega
      rw [this, hok] at hj3
      cases hj3
termination_by max_retries - k

/-- When every attempt from `k` through `max_retries` fails, the retry loop
returns the final attempt's error after sleeping the fixed delay between
each pair of consecutive attempts. -/
theorem retry_chunk_all_fail_from {E : Type} (o : ℕ → Except E Unit) (k : ℕ)
    (hk : k ≤ max_retries)
    (h : ∀ j, k ≤ j → j ≤ max_retries → o j ≠ .ok ()) :
    retry_chunk o k = (o max_retries, (max_retries - k) * delay_between_retries) := by
  obtain ⟨e, he⟩ : ∃ e, o k = .error e := by
    cases hok : o k with
    | ok u => cases u; exact absurd hok (h k (Nat.le_refl k) hk)
    | error e => exact ⟨e, rfl⟩
  by_cases hlt : k < max_retries
  · rw [retry_chunk_err_lt o k e he hlt,
      retry_chunk_all_fail_from o (k + 1) hlt (fun j h1 h2 => h j (by omega) h2)]
    dsimp only
    refine Prod.ext rfl ?_
    simp only [max_retries, delay_between_retries]
    simp only [max_retries] at hlt
    omega
  · have hkm : k = max_retries := by omega
    subst hkm
    rw [retry_chunk_err_ge o max_retries e he hlt, he, Nat.sub_self]
    simp
termination_by max_retries - k

/-- The page list, with its let-bindings expanded. -/
theorem pages_eq (amount : ℕ) :
    pages amount =
      (List.range
          (if amount % batch_size > 0 then amount / batch_size + 1
           else amount / batch_size)).map
        (fun i => (i * batch_size,
          if i = amount / batch_size ∧ amount % batch_size > 0 then amount % batch_size
          else batch_size)) := rfl

/-- The number of page requests is the ceiling of `amount / 50`. -/
theorem pages_length (amount : ℕ) :
    (pages amount).length = (amount + batch_size - 1) / batch_size := by
  rw [pages_eq]
  simp only [List.length_map, List.length_range, batch_size]
  split_ifs with h <;> omega

/-- Page `i` requests offset `i * 50`, with limit 50 on every page but the
last, whose limit is `amount mod 50` (or 50 on even division). -/
theorem pages_get (amount i : ℕ) (h : i < (pages amount).length) :
    (pages amount)[i]? = some (i * batch_size,
      if i + 1 = (pages amount).length then
        (if amount % batch_size = 0 then batch_size else amount % batch_size)
      else batch_size) := by
  rw [pages_eq] at h ⊢
  rw [List.length_map, List.length_range] at h
  rw [List.getElem?_map, List.getElem?_range h]
  simp only [Option.map_some', Option.some.injEq]
  refine Prod.ext rfl ?_
  simp only [List.length_map, List.length_range, batch_size] at *
  split_ifs <;> omega

/-- Collecting pages whose fetches all succeed concatenates the page
results in page order. -/
theorem collect_pages_all_ok {E T : Type} (res : ℕ → ℕ → List T) :
    ∀ (ps : List (ℕ × ℕ)) (acc : List T),
      collect_pages (fun o l => (Except.ok (res o l) : Except E (List T))) ps acc
        = .ok (acc ++ (ps.map (fun p => res p.1 p.2)).flatten) := by
  intro ps
  induction ps with
  | nil => intro acc; simp [collect_pages]
  | cons p t ih => intro acc; simp [collect_pages, ih]

/-- Totality of the first sort's comparator. -/
theorem added_desc_total (x y : String × TimeRating) : added_desc x y ∨ added_desc y x :=
  Int.le_total _ _

/-- Transitivity of the first sort's comparator. -/
theorem added_desc_trans (x y z : String × TimeRating)
    (h1 : added_desc x y) (h2 : added_desc y z) : added_desc x z :=
  Int.le_trans h2 h1

/-- Totality of the second sort's comparator. -/
theorem rating_asc_total (x y : String × TimeRating) : rating_asc x y ∨ rating_asc y x :=
  F32.fle_total _ _

/-- Transitivity of the second sort's comparator. -/
theorem rating_asc_trans (x y z : String × TimeRating)
    (h1 : rating_asc x y) (h2 : rating_asc y z) : rating_asc x z :=
  F32.fle_trans h1 h2

/-- The two-pass sort is ordered by rating ascending and breaks rating ties
by the first pass's order (timestamps descending). -/
theorem rank_vec_pairwise (l : Store) :
    (rank_vec l).Pairwise (fun x y =>
      F32.fle x.2.rating y.2.rating ∧
        (F32.feq x.2.rating y.2.rating → y.2.added_at ≤ x.2.added_at)) := by
  have h1 : (List.insertionSort added_desc l).Pairwise added_desc := by
    letI : IsTotal (String × TimeRating) added_desc := ⟨added_desc_total⟩
    letI : IsTrans (String × TimeRating) added_desc := ⟨added_desc_trans⟩
    exact List.sorted_insertionSort added_desc l
  have h2 := insertionSort_pairwise_stable rating_asc_total rating_asc_trans
    (List.insertionSort added_desc l) h1
  refine h2.imp ?_
  rintro x y ⟨hle, htie⟩
  exact ⟨hle, fun hfeq => htie (F32.feq_fge hfeq)⟩

/-- The two-pass sort permutes the store's entries. -/
theorem rank_vec_perm (l : Store) : List.Perm (rank_vec l) l :=
  (List.perm_insertionSort rating_asc _).trans (List.perm_insertionSort added_desc l)

/-! ### Claim theorems -/

/-- Claim C1, counterexample: on a present but malformed store file,
`load_hashmap` fails with `ParseError`, yet `load_or_create_hashmap`
returns the empty store instead of propagating that error — refuting the
claim that only `NotFound` is replaced by an empty store while other load
errors propagate unchanged. -/
theorem load_or_create_swallows_parse_error :
    load_hashmap (FileAccess.content (Except.error ())) = Except.error LoadError.parseError ∧
    load_or_create_hashmap (FileAccess.content (Except.error ())) = Except.ok [] ∧
    load_or_create_hashmap (FileAccess.content (Except.error ())) ≠
      Except.error LoadError.parseError :=
  ⟨rfl, rfl, fun h => Except.noConfusion h⟩

/-- Claim C1, amended: `load_or_create_hashmap` never fails — a successful
load is passed through unchanged, and every load error (`NotFound`,
`ParseError` and `IOError` alike) is replaced by the empty store. -/
theorem load_or_create_spec :
    (∀ (f : FileAccess) (m : Store),
        load_hashmap f = .ok m → load_or_create_hashmap f = .ok m) ∧
    (∀ (f : FileAccess) (e : LoadError),
        load_hashmap f = .error e → load_or_create_hashmap f = .ok []) ∧
    (∀ f : FileAccess, ∃ m : Store, load_or_create_hashmap f = .ok m) := by
  refine ⟨?_, ?_, ?_⟩
  · intro f m h
    unfold load_or_create_hashmap
    rw [h]
  · intro f e h
    unfold load_or_create_hashmap
    rw [h]
  · intro f
    unfold load_or_create_hashmap
    cases load_hashmap f with
    | ok m => exact ⟨m, rfl⟩
    | error e => exact ⟨[], rfl⟩

/-- Witness for the amended C1 at concrete inputs: the absent file and a
failing read both give the empty store, and a well-formed file gives its
contents. -/
theorem load_or_create_spec_witness :
    load_or_create_hashmap FileAccess.absent = Except.ok [] ∧
    load_or_create_hashmap FileAccess.readFailure = Except.ok [] ∧
    load_or_create_hashmap (FileAccess.content (Except.ok example_store)) =
      Except.ok example_store :=
  ⟨load_or_create_spec.2.1 FileAccess.absent LoadError.notFound rfl,
   load_or_create_spec.2.1 FileAccess.readFailure LoadError.ioError rfl,
   load_or_create_spec.1 (FileAccess.content (Except.ok example_store)) example_store rfl⟩

/-- Claim C2, the code evaluated at the failing input: the rating string
`NaN` parses successfully to NaN via `f32::from_str`, so the `rate`
command on a store holding the currently playing song persists a NaN
rating — violating the invariant the `weights` sort asserts with
`expect("all elements have a (non NaN) rating")`, modelled by
`weights_command` refusing the resulting store once a comparison with the
NaN entry occurs. -/
theorem rate_nan_reaches_store :
    f32_from_str "NaN" = some F32.nan ∧
    parse_rating "NaN" = some F32.nan ∧
    rate_command [("song", TimeRating.new 0 (F32.val (Frac.ofInt 2)))] "song" "NaN" =
      some (F32.val (Frac.ofInt 2), [("song", TimeRating.new 0 F32.nan)]) ∧
    weights_command [("song", TimeRating.new 0 F32.nan),
      ("song2", TimeRating.new 1 (F32.val (Frac.ofInt 2)))] = none :=
  ⟨by decide, by decide, by decide, by decide⟩

/-- Claim C5: on the empty store the rank sequence is empty and the
weights command succeeds with the empty feed; the `10.0 / 0` step value
(infinite in the real code, arbitrary in the model) is never used. -/
theorem weights_empty_store :
    rank_vec [] = [] ∧ weights_command [] = some "" :=
  ⟨rfl, by decide⟩

/-- Claim C10: a fetch of zero items issues zero page requests and returns
the empty list successfully, for every paged-fetch capability. -/
theorem fetch_zero :
    pages 0 = [] ∧
    ∀ (E T : Type) (fetchPage : ℕ → ℕ → Except E (List T)),
      get_liked_songs 0 fetchPage = .ok [] :=
  ⟨rfl, fun _ _ _ => rfl⟩

/-- An id absent from the store and from the records stays absent: the
merge loop inserts nothing else. -/
theorem merge_new_no_insert (records : List LikedRecord) :
    ∀ (s : Store) (id : String), List.lookup id s = none →
      (∀ r ∈ records, r.id ≠ id) → List.lookup id (merge_new s records) = none := by
  induction records with
  | nil => intro s id h _; exact h
  | cons q t ih =>
    intro s id habs hno
    unfold merge_new
    rw [List.foldl_cons]
    by_cases hs : (List.lookup q.id s).isSome
    · rw [if_pos hs]
      exact ih s id habs (fun r hr => hno r (List.mem_cons_of_mem _ hr))
    · rw [if_neg hs]
      refine ih _ id ?_ (fun r hr => hno r (List.mem_cons_of_mem _ hr))
      rw [lookup_append, habs]
      simp [List.lookup_cons,
        beq_false_of_ne (fun he => hno q (List.mem_cons_self _ _) he.symm)]

/-- Claim C9: the update-db merge loop never overwrites an existing entry,
inserts the neutral entry `(record.addedAt, 3.0)` exactly for the record
ids absent from the store, and is idempotent. -/
theorem merge_new_spec :
    (∀ (s : Store) (records : List LikedRecord) (id : String) (v : TimeRating),
        List.lookup id s = some v → List.lookup id (merge_new s records) = some v) ∧
    (∀ (s : Store) (records : List LikedRecord) (id : String),
        List.lookup id s = none → (∃ r ∈ records, r.id = id) →
        ∃ r ∈ records, r.id = id ∧
          List.lookup id (merge_new s records) =
            some (TimeRating.new r.added_at (F32.val (Frac.ofInt 3)))) ∧
    (∀ (s : Store) (records : List LikedRecord) (id : String),
        List.lookup id s = none → (∀ r ∈ records, r.id ≠ id) →
        List.lookup id (merge_new s records) = none) ∧
    (∀ (s : Store) (records : List LikedRecord),
        merge_new (merge_new s records) records = merge_new s records) :=
  ⟨fun s records id v h => merge_new_preserves records s id v h,
   fun s records id h1 h2 => merge_new_inserts records s id h1 h2,
   fun s records id h1 h2 => merge_new_no_insert records s id h1 h2,
   fun s records => merge_new_idem_helper s records⟩

/-- Witness for C9 at concrete inputs: merging one new record into the
example store keeps the existing entry `a`, inserts `d` with rating `3.0`
and the record's timestamp, and leaves an unrelated id absent. -/
theorem merge_new_spec_witness :
    List.lookup "a" (merge_new example_store [⟨"d", 5⟩]) =
      some (TimeRating.new 20230101 (F32.val (Frac.ofInt 2))) ∧
    (∃ r ∈ ([⟨"d", 5⟩] : List LikedRecord), r.id = "d" ∧
      List.lookup "d" (merge_new example_store [⟨"d", 5⟩]) =
        some (TimeRating.new r.added_at (F32.val (Frac.ofInt 3)))) ∧
    List.lookup "x" (merge_new example_store [⟨"d", 5⟩]) = none :=
  ⟨merge_new_spec.1 example_store [⟨"d", 5⟩] "a"
      (TimeRating.new 20230101 (F32.val (Frac.ofInt 2))) (by decide),
   merge_new_spec.2.1 example_store [⟨"d", 5⟩] "d" (by decide)
      ⟨⟨"d", 5⟩, List.mem_cons_self _ _, rfl⟩,
   merge_new_spec.2.2.1 example_store [⟨"d", 5⟩] "x" (by decide)
      (by intro r hr; rcases List.mem_cons.mp hr with rfl | h2
          · decide
          · cases h2)⟩

/-- Claim C8: rating an id present in the store returns the previous
rating and produces a store in which only that entry's rating changed —
its timestamp is kept, every other id's lookup is unchanged, and the key
sequence is unchanged; rating an absent id returns `none` (the command
prints an error and returns before mutating or saving), and the whole
rate flow likewise saves nothing for an absent id. -/
theorem set_rating_spec :
    (∀ (s : Store) (id : String) (r : F32) (tr : TimeRating),
        List.lookup id s = some tr →
        ∃ s2 : Store,
          set_rating s id r = some (tr.rating, s2) ∧
          List.lookup id s2 = some (TimeRating.new tr.added_at r) ∧
          (∀ id2, id2 ≠ id → List.lookup id2 s2 = List.lookup id2 s) ∧
          s2.map Prod.fst = s.map Prod.fst) ∧
    (∀ (s : Store) (id : String) (r : F32),
        List.lookup id s = none → set_rating s id r = none) ∧
    (∀ (s : Store) (id ratingStr : String),
        List.lookup id s = none → rate_command s id ratingStr = none) := by
  refine ⟨?_, ?_, ?_⟩
  · intro s id r tr h
    refine ⟨s.map (fun p => if p.1 = id then (p.1, TimeRating.new p.2.added_at r) else p),
      ?_, lookup_map_update_self s id r tr h,
      fun id2 h2 => lookup_map_update_other s id id2 r h2,
      map_update_keys s id r⟩
    unfold set_rating
    rw [h]
  · intro s id r h
    unfold set_rating
    rw [h]
  · intro s id ratingStr h
    unfold rate_command
    cases parse_rating ratingStr with
    | none => rfl
    | some r =>
      show set_rating s id r = none
      unfold set_rating
      rw [h]

/-- Witness for C8 at concrete inputs: rating `a` in the example store
returns the previous rating `2.0` and updates only `a`; rating an unknown
id is a no-op of the whole flow. -/
theorem set_rating_spec_witness :
    (∃ s2 : Store,
      set_rating example_store "a" (F32.val (Frac.ofInt 1)) =
          some (F32.val (Frac.ofInt 2), s2) ∧
        List.lookup "a" s2 =
          some (TimeRating.new 20230101 (F32.val (Frac.ofInt 1))) ∧
        (∀ id2, id2 ≠ "a" → List.lookup id2 s2 = List.lookup id2 example_store) ∧
        s2.map Prod.fst = example_store.map Prod.fst) ∧
    set_rating example_store "zz" (F32.val (Frac.ofInt 1)) = none ∧
    rate_command example_store "zz" "great" = none := by
  refine ⟨?_, set_rating_spec.2.1 example_store "zz" (F32.val (Frac.ofInt 1)) (by decide),
    set_rating_spec.2.2 example_store "zz" "great" (by decide)⟩
  have h := set_rating_spec.1 example_store "a" (F32.val (Frac.ofInt 1))
    (TimeRating.new 20230101 (F32.val (Frac.ofInt 2))) (by decide)
  exact h

/-- Claim C4: the ranked output is ordered by rating ascending, two
entries of equal rating keep the later-added-first order established by
the first sort, the output is a permutation of the store, and on the
example store the rank order is `b`, `a`, `c`. -/
theorem rank_order_spec :
    (∀ l : Store, all_ratings_non_nan l →
      (rank_vec l).Pairwise (fun x y =>
        F32.fle x.2.rating y.2.rating ∧
          (F32.feq x.2.rating y.2.rating → y.2.added_at ≤ x.2.added_at)) ∧
      List.Perm (rank_vec l) l) ∧
    rank_vec example_store =
      [("b", TimeRating.new 20230601 (F32.val (Frac.ofInt 2))),
       ("a", TimeRating.new 20230101 (F32.val (Frac.ofInt 2))),
       ("c", TimeRating.new 20230301 (F32.val (Frac.ofInt 4)))] :=
  ⟨fun l _ => ⟨rank_vec_pairwise l, rank_vec_perm l⟩, by decide⟩

/-- Witness for C4 at the example store (whose ratings are all non-NaN). -/
theorem rank_order_spec_witness :
    (rank_vec example_store).Pairwise (fun x y =>
      F32.fle x.2.rating y.2.rating ∧
        (F32.feq x.2.rating y.2.rating → y.2.added_at ≤ x.2.added_at)) ∧
    List.Perm (rank_vec example_store) example_store :=
  rank_order_spec.1 example_store (by decide)

/-- Claim C3: for every non-empty NaN-free store the feed renders, at each
0-based rank index `i`, the entry's id, a colon, and `10 − (10/n)·i`
rounded to two decimals, all joined by `|` with no leading or trailing
delimiter (`step_frac n` is exactly `10 / n` for positive `n`); on the
three-entry example store the feed is `b:10.00|a:6.67|c:3.33`. -/
theorem weights_formula_spec :
    (∀ n : ℕ+, step_frac (n : ℕ) = Frac.divPNat (Frac.ofInt 10) n) ∧
    (∀ l : Store, l ≠ [] → all_ratings_non_nan l →
      weights_command l = some (String.intercalate "|"
        (((rank_vec l).enum).map (fun p => p.2.1 ++ ":" ++
          fmt2 (Frac.sub (Frac.ofInt 10)
            (Frac.mul (step_frac (rank_vec l).length) (Frac.ofInt p.1))))))) ∧
    weights_command example_store = some "b:10.00|a:6.67|c:3.33" := by
  refine ⟨?_, ?_, by decide⟩
  · intro n
    unfold step_frac Frac.divPNat Frac.ofInt
    congr 1
    refine Subtype.ext ?_
    show Nat.max (n : ℕ) 1 = ((1 * n : ℕ+) : ℕ)
    rw [PNat.mul_coe, PNat.one_coe, Nat.one_mul]
    exact Nat.max_eq_left n.one_le
  · intro l hne hnn
    unfold weights_command
    rw [if_pos hnn]
    refine congrArg some ?_
    show String.intercalate "|"
        (((rank_vec l).enum).map (fun p => p.2.1 ++ ":" ++
          fmt2 (Frac.add
            (Frac.sub (Frac.ofInt 9)
              (Frac.mul (step_frac (rank_vec l).length) (Frac.ofInt p.1)))
            (Frac.ofInt 1)))) = _
    refine congrArg (String.intercalate "|") ?_
    have hfun : ∀ p : ℕ × (String × TimeRating),
        p.2.1 ++ ":" ++
            fmt2 (Frac.add
              (Frac.sub (Frac.ofInt 9)
                (Frac.mul (step_frac (rank_vec l).length) (Frac.ofInt p.1)))
              (Frac.ofInt 1)) =
          p.2.1 ++ ":" ++
            fmt2 (Frac.sub (Frac.ofInt 10)
              (Frac.mul (step_frac (rank_vec l).length) (Frac.ofInt p.1))) := by
      intro p
      refine congrArg (fun t => p.2.1 ++ ":" ++ t) (fmt2_congr ?_)
      unfold Frac.equiv Frac.add Frac.sub Frac.mul Frac.ofInt Frac.dz step_frac
      push_cast [PNat.mul_coe, PNat.one_coe]
      ring
    exact congrArg (fun f => List.map f ((rank_vec l).enum)) (funext hfun)

/-- Witness for C3 at the example store (non-empty, all ratings non-NaN). -/
theorem weights_formula_spec_witness :
    weights_command example_store = some (String.intercalate "|"
      (((rank_vec example_store).enum).map (fun p => p.2.1 ++ ":" ++
        fmt2 (Frac.sub (Frac.ofInt 10)
          (Frac.mul (step_frac (rank_vec example_store).length) (Frac.ofInt p.1)))))) :=
  weights_formula_spec.2.1 example_store (by decide) (by decide)

/-- Claim C7: the fetch issues exactly `ceil(total / 50)` page requests
with offsets `0, 50, 100, …` ascending, each of limit 50 except the last,
whose limit is `total mod 50` (or 50 when `total` divides evenly); when
every page succeeds the page results are concatenated in ascending-offset
order; and `fetch(120)` issues exactly the three requests
`(0,50), (50,50), (100,20)`. -/
theorem fetch_pages_spec :
    (∀ amount : ℕ, (pages amount).length = (amount + batch_size - 1) / batch_size) ∧
    (∀ amount i : ℕ, i < (pages amount).length →
      (pages amount)[i]? = some (i * batch_size,
        if i + 1 = (pages amount).length then
          (if amount % batch_size = 0 then batch_size else amount % batch_size)
        else batch_size)) ∧
    (∀ (E T : Type) (amount : ℕ) (res : ℕ → ℕ → List T),
      get_liked_songs amount (fun o lim => (Except.ok (res o lim) : Except E (List T)))
        = .ok (((pages amount).map (fun p => res p.1 p.2)).flatten)) ∧
    pages 120 = [(0, 50), (50, 50), (100, 20)] := by
  refine ⟨pages_length, pages_get, ?_, by decide⟩
  intro E T amount res
  unfold get_liked_songs
  rw [collect_pages_all_ok]
  rw [List.nil_append]

/-- Witness for C7 at `total = 120`: the last page request is
`(100, 20)`. -/
theorem fetch_pages_spec_witness :
    (pages 120)[2]? = some (2 * batch_size,
      if 2 + 1 = (pages 120).length then
        (if 120 % batch_size = 0 then batch_size else 120 % batch_size)
      else batch_size) :=
  fetch_pages_spec.2.1 120 2 (by decide)

/-- Claim C6: populate splits the ids into chunks of at most 100 that
cover the list; each chunk is attempted up to 4 times (`max_retries = 3`
retries) with the fixed `delay_between_retries = 2`-second sleep between
consecutive attempts — the retry loop succeeds exactly when one of the 4
attempts succeeds, and when all 4 fail it returns the final error after 3
delays; every chunk's outcome is collected (a chunk index maps to its own
retry result, unaffected by the other chunks' outcomes), and the overall
operation returns success regardless of per-chunk failures. -/
theorem populate_retry_spec :
    max_retries = 3 ∧ delay_between_retries = 2 ∧
    (∀ ids : List String,
      (∀ c ∈ chunksOf 100 ids, c.length ≤ 100) ∧ (chunksOf 100 ids).flatten = ids) ∧
    (∀ (E : Type) (o : ℕ → Except E Unit),
      ((retry_chunk o 0).1 = .ok () ↔ ∃ k, k ≤ max_retries ∧ o k = .ok ())) ∧
    (∀ (E : Type) (o : ℕ → Except E Unit),
      (∀ k, k ≤ max_retries → o k ≠ .ok ()) →
      retry_chunk o 0 = (o max_retries, max_retries * delay_between_retries)) ∧
    (∀ (E : Type) (ids : List String) (o : ℕ → ℕ → Except E Unit),
      (populate_playlist ids o).2 = .ok () ∧
      (populate_playlist ids o).1.length = (chunksOf 100 ids).length ∧
      (∀ ci : ℕ, (populate_playlist ids o).1[ci]? =
        if ci < (chunksOf 100 ids).length then some (retry_chunk (o ci) 0).1 else none)) ∧
    (∀ (E : Type) (ids : List String) (o o2 : ℕ → ℕ → Except E Unit) (ci : ℕ),
      (∀ cj, cj ≠ ci → o cj = o2 cj) →
      ∀ cj, cj ≠ ci →
        (populate_playlist ids o).1[cj]? = (populate_playlist ids o2).1[cj]?) := by
  have hresults : ∀ (E : Type) (ids : List String) (o : ℕ → ℕ → Except E Unit) (ci : ℕ),
      (populate_playlist ids o).1[ci]? =
        if ci < (chunksOf 100 ids).length then some (retry_chunk (o ci) 0).1 else none := by
    intro E ids o ci
    unfold populate_playlist
    dsimp only
    by_cases h : ci < (chunksOf 100 ids).length
    · rw [List.getElem?_map, List.getElem?_range h, if_pos h]
      rfl
    · rw [if_neg h]
      refine List.getElem?_eq_none ?_
      simp only [List.length_map, List.length_range]
      omega
  refine ⟨rfl, rfl, ?_, ?_, ?_, ?_, ?_⟩
  · intro ids
    exact ⟨chunksOf_length_le 100 ids, chunksOf_flatten 100 (by omega) ids⟩
  · intro E o
    rw [retry_chunk_ok_iff_from o 0 (by omega)]
    constructor
    · rintro ⟨j, _, hj2, hj3⟩
      exact ⟨j, hj2, hj3⟩
    · rintro ⟨j, hj1, hj2⟩
      exact ⟨j, Nat.zero_le j, hj1, hj2⟩
  · intro E o h
    have := retry_chunk_all_fail_from o 0 (Nat.zero_le _) (fun j _ hj2 => h j hj2)
    rwa [Nat.sub_zero] at this
  · intro E ids o
    exact ⟨rfl, by unfold populate_playlist; simp, hresults E ids o⟩
  · intro E ids o o2 ci hagree cj hcj
    rw [hresults E ids o cj, hresults E ids o2 cj, hagree cj hcj]

/-- Witness for C6 at concrete inputs: a chunk failing attempts 0 and 1
and succeeding on attempt 2 reports success; a chunk failing all four
attempts returns the final error after the three fixed delays; and
changing only chunk 0's outcomes leaves chunk 1's reported result
unchanged. -/
theorem populate_retry_spec_witness :
    (retry_chunk (fun k => if k = 2 then Except.ok () else Except.error (0 : ℕ)) 0).1 =
      .ok () ∧
    retry_chunk (fun _ => Except.error (7 : ℕ)) 0 =
      ((fun _ => Except.error (7 : ℕ)) max_retries,
        max_retries * delay_between_retries) ∧
    (populate_playlist ["x"] (fun _ _ => Except.ok ())).1[1]? =
      (populate_playlist ["x"]
        (fun ci _ => if ci = 0 then Except.error (1 : ℕ) else Except.ok ())).1[1]? := by
  refine ⟨?_, ?_, ?_⟩
  · exact (populate_retry_spec.2.2.2.1 ℕ _).mpr ⟨2, by decide, by simp⟩
  · exact populate_retry_spec.2.2.2.2.1 ℕ _ (fun k hk => by simp)
  · exact populate_retry_spec.2.2.2.2.2.2 ℕ ["x"] _ _ 0
      (fun cj hcj => by funext k; simp [hcj]) 1 (by omega)
